import Mathlib

/-!
Verification of the negamax search core of the python chess engine
(src/eval.py).  The board library (python-chess) is an external
collaborator; it is embedded as an abstract adapter supplying the piece
map, legal move list, move application, capture and promotion predicates,
game-over detection and the FEN round trip.  Every definition below is a
direct translation of the corresponding function in src/eval.py.
-/

namespace ChessEngine

/-- Piece kinds of the board library (chess.PAWN .. chess.KING). -/
inductive PieceType where
  | pawn
  | knight
  | bishop
  | rook
  | queen
  | king
deriving DecidableEq

/-- A piece as stored in the board's piece map: a kind and a color
(true is chess.WHITE, false is chess.BLACK). -/
structure Piece where
  pieceType : PieceType
  color : Bool
deriving DecidableEq

/-- Constant INFINITY of src/eval.py line 6. -/
def INFINITY : Int := 100000

/-- The material-weights dictionary of src/eval.py lines 9-15.  The king
has no entry, modelled as none. -/
def material_weights : PieceType → Option Int
  | .pawn => some 100
  | .knight => some 320
  | .bishop => some 330
  | .rook => some 500
  | .queen => some 900
  | .king => none

/-- Dictionary lookup material_weights.get(piece.piece_type, 0). -/
def pieceValue (p : Piece) : Int :=
  (material_weights p.pieceType).getD 0

/-- evaluate_board of src/eval.py lines 18-27: fold over the values of the
piece map, adding the weight of every White piece and subtracting the
weight of every Black piece. -/
def evaluate_board (pieces : List Piece) : Int :=
  pieces.foldl
    (fun material p =>
      if p.color then material + pieceValue p else material - pieceValue p)
    0

/-- Color-swap of a single piece, the material content of the
color-mirror operation of the board library. -/
def mirrorPiece (p : Piece) : Piece :=
  ⟨p.pieceType, !p.color⟩

/-- The piece map of the color-mirrored board: every piece changes color.
Square mirroring does not alter the piece multiset, and evaluate_board
reads only the values of the piece map, so this is the whole effect of
mirroring on the evaluation. -/
def mirrorPieces (ps : List Piece) : List Piece :=
  ps.map mirrorPiece

/-- The capability set the search consumes from the board library:
piece map, legal moves, move application, game-over and capture tests,
promotion flag of a move, and the FEN encode/decode pair used by the
parallel root scheduler.  B is the board type, M the move type, F the
FEN-string type. -/
structure Adapter (B M F : Type) where
  pieces : B → List Piece
  legalMoves : B → List M
  push : B → M → B
  isGameOver : B → Bool
  isCapture : B → M → Bool
  promotion : M → Bool
  fen : B → F
  fromFen : F → B

variable {B M F : Type}

/-- The inner move_score of order_moves (src/eval.py lines 34-40):
promotions score the queen weight, captures score 1, all other moves 0. -/
def move_score (A : Adapter B M F) (b : B) (m : M) : Int :=
  if A.promotion m then (material_weights .queen).getD 0
  else if A.isCapture b m then 1
  else 0

/-- order_moves of src/eval.py lines 30-43: the legal moves sorted by
move_score in descending order.  Python's list sort is stable, as is
List.insertionSort, so this is the exact list the source produces. -/
def order_moves (A : Adapter B M F) (b : B) : List M :=
  List.insertionSort (fun m1 m2 => move_score A b m2 ≤ move_score A b m1)
    (A.legalMoves b)

/-- Fold a running maximum of t over a list, seeded with s.  This is the
value of the accumulator max_eval after a full, uncut loop. -/
def maxFold (t : M → Int) (s : Int) : List M → Int
  | [] => s
  | m :: ms => maxFold t (max s (t m)) ms

/-- The move loop of negamax (src/eval.py lines 51-62), abstracted over
the recursive call: child m a is the negated recursive score of move m
searched with the window (-beta, -a).  The accumulator updates mirror the
source: max_eval gets max with the child score, alpha gets max with
max_eval, and the loop stops early when alpha is at least beta. -/
def abLoop (child : M → Int → Int) (beta : Int) : List M → Int → Int → Int
  | [], maxEval, _alpha => maxEval
  | m :: ms, maxEval, alpha =>
    if beta ≤ max alpha (max maxEval (child m alpha)) then
      max maxEval (child m alpha)
    else
      abLoop child beta ms (max maxEval (child m alpha))
        (max alpha (max maxEval (child m alpha)))

/-- negamax of src/eval.py lines 46-64, for non-negative depths.  At depth
zero or on a game-over board it returns color times the material score;
otherwise it runs the alpha-beta loop over the ordered moves with the
accumulator seeded at -INFINITY. -/
def negamax (A : Adapter B M F) : B → Nat → Int → Int → Int → Int
  | b, 0, _alpha, _beta, color => color * evaluate_board (A.pieces b)
  | b, d + 1, alpha, beta, color =>
    if A.isGameOver b then color * evaluate_board (A.pieces b)
    else
      abLoop (fun m a => -negamax A (A.push b m) d (-beta) (-a) (-color))
        beta (order_moves A b) (-INFINITY) alpha

/-- Modelled from the spec: the unpruned full-width fixed-depth minimax
value over the same move tree and the same evaluate_board leaf function,
the comparison point of the pruning-soundness property.  It is the plain
maximum of the negated child values, with no alpha-beta window. -/
def fullwidth (A : Adapter B M F) : B → Nat → Int → Int
  | b, 0, color => color * evaluate_board (A.pieces b)
  | b, d + 1, color =>
    if A.isGameOver b then color * evaluate_board (A.pieces b)
    else
      maxFold (fun m => -fullwidth A (A.push b m) d (-color)) (-INFINITY)
        (order_moves A b)

/-- The move loop of negamax with the alpha-beta cutoff removed: the
accumulator updates are kept but the loop never breaks. -/
def unprunedLoop (child : M → Int → Int) : List M → Int → Int → Int
  | [], maxEval, _alpha => maxEval
  | m :: ms, maxEval, alpha =>
    unprunedLoop child ms (max maxEval (child m alpha))
      (max alpha (max maxEval (child m alpha)))

/-- Modelled from the spec: negamax without the alpha-beta cutoff, the
other reading of the unpruned comparison point of the pruning-soundness
property.  Identical to negamax except that the loop never breaks. -/
def unpruned_negamax (A : Adapter B M F) : B → Nat → Int → Int → Int → Int
  | b, 0, _alpha, _beta, color => color * evaluate_board (A.pieces b)
  | b, d + 1, alpha, beta, color =>
    if A.isGameOver b then color * evaluate_board (A.pieces b)
    else
      unprunedLoop
        (fun m a => -unpruned_negamax A (A.push b m) d (-beta) (-a) (-color))
        (order_moves A b) (-INFINITY) alpha

/-- evaluate_move of src/eval.py lines 67-72: a worker rebuilds the board
from the FEN snapshot, plays the root move, and returns the move together
with the negated full-window search of the child at depth - 1. -/
def evaluate_move (A : Adapter B M F) (m : M) (board_fen : F) (depth : Nat) :
    M × Int :=
  (m, -negamax A (A.push (A.fromFen board_fen) m) (depth - 1)
        (-INFINITY) INFINITY (-1))

/-- The list of (move, score) results the worker pool hands back to
choose_best_move, in dispatch order (pool.map preserves input order). -/
def root_results (A : Adapter B M F) (b : B) (max_depth : Nat) :
    List (M × Int) :=
  (order_moves A b).map (fun m => evaluate_move A m (A.fen b) max_depth)

/-- The reduction loop of choose_best_move (src/eval.py lines 86-91):
scan the results, keeping the first pair whose score strictly beats the
running maximum, starting from (None, -INFINITY). -/
def reduce_best : List (M × Int) → Option M × Int → Option M × Int
  | [], acc => acc
  | p :: rest, acc =>
    if acc.2 < p.2 then reduce_best rest (some p.1, p.2)
    else reduce_best rest acc

/-- choose_best_move of src/eval.py lines 75-93: order the root moves,
score each with evaluate_move on a private copy rebuilt from the FEN
snapshot, and reduce to the first strict maximum. -/
def choose_best_move (A : Adapter B M F) (b : B) (max_depth : Nat) :
    Option M :=
  (reduce_best (root_results A b max_depth) (none, -INFINITY)).1

/-- The mutable board of the source, made explicit: the current position
together with the undo stack that board.push grows and board.pop
consumes. -/
def pushS (A : Adapter B M F) (m : M) (s : B × List B) : B × List B :=
  (A.push s.1 m, s.1 :: s.2)

/-- board.pop: restore the position stored on top of the undo stack.  On
an empty stack (never reached by the balanced source code) it is the
identity. -/
def popS (s : B × List B) : B × List B :=
  match s.2 with
  | [] => s
  | b :: st => (b, st)

/-- The move loop of negamax with the board mutation made explicit: every
iteration pushes the move, runs the recursive search on the mutated
board, pops, and only then tests the cutoff, exactly as in src/eval.py
lines 52-62. -/
def abLoopS (A : Adapter B M F)
    (recur : B × List B → Int → Int → Int × (B × List B)) (beta : Int) :
    List M → B × List B → Int → Int → Int × (B × List B)
  | [], s, maxEval, _alpha => (maxEval, s)
  | m :: ms, s, maxEval, alpha =>
    if beta ≤
        max alpha (max maxEval (-(recur (pushS A m s) (-beta) (-alpha)).1))
    then
      (max maxEval (-(recur (pushS A m s) (-beta) (-alpha)).1),
        popS (recur (pushS A m s) (-beta) (-alpha)).2)
    else
      abLoopS A recur beta ms (popS (recur (pushS A m s) (-beta) (-alpha)).2)
        (max maxEval (-(recur (pushS A m s) (-beta) (-alpha)).1))
        (max alpha (max maxEval (-(recur (pushS A m s) (-beta) (-alpha)).1)))

/-- negamax with the board threaded as explicit mutable state, the
faithful rendering of src/eval.py lines 46-64 including the push/pop
pairing around every recursive call. -/
def negamaxS (A : Adapter B M F) :
    B × List B → Nat → Int → Int → Int → Int × (B × List B)
  | s, 0, _alpha, _beta, color => (color * evaluate_board (A.pieces s.1), s)
  | s, d + 1, alpha, beta, color =>
    if A.isGameOver s.1 then (color * evaluate_board (A.pieces s.1), s)
    else
      abLoopS A (fun s2 a bt => negamaxS A s2 d a bt (-color)) beta
        (order_moves A s.1) s (-INFINITY) alpha

/-- evaluate_move with the worker board state made explicit: the worker
board is a fresh private copy built from the FEN snapshot with an empty
undo stack, the root move is pushed and never popped, and the worker
state is discarded by the caller. -/
def evaluate_moveS (A : Adapter B M F) (m : M) (board_fen : F)
    (depth : Nat) : (M × Int) × (B × List B) :=
  ((m, -(negamaxS A (pushS A m (A.fromFen board_fen, [])) (depth - 1)
          (-INFINITY) INFINITY (-1)).1),
    (negamaxS A (pushS A m (A.fromFen board_fen, [])) (depth - 1)
        (-INFINITY) INFINITY (-1)).2)

/-- choose_best_move with the root board state made explicit: the root
board is only read (fen, legal-move enumeration, capture tests); all
mutation happens on the workers' private copies, and the root state is
returned untouched. -/
def choose_best_moveS (A : Adapter B M F) (s : B × List B)
    (max_depth : Nat) : Option M × (B × List B) :=
  ((reduce_best
      ((order_moves A s.1).map
        (fun m => (evaluate_moveS A m (A.fen s.1) max_depth).1))
      (none, -INFINITY)).1,
    s)

/-- The move loop over a fallible child search: a child that runs out of
recursion budget aborts the whole loop, mirroring a Python RecursionError
unwinding the stack. -/
def abLoopFuel (child : M → Int → Option Int) (beta : Int) :
    List M → Int → Int → Option Int
  | [], maxEval, _alpha => some maxEval
  | m :: ms, maxEval, alpha =>
    (child m alpha).bind (fun v =>
      if beta ≤ max alpha (max maxEval (-v)) then some (max maxEval (-v))
      else abLoopFuel child beta ms (max maxEval (-v))
        (max alpha (max maxEval (-v))))

/-- negamax over an Int depth, as in the source where depth is a plain
Python int, with an explicit recursion budget: each nested call consumes
one unit of fuel and the search answers none when the budget is
exhausted.  The terminal test is the literal source guard
(depth == 0 or board.is_game_over()); no sign check is performed on
depth, so a negative depth simply never matches the depth test. -/
def negamaxFuel (A : Adapter B M F) :
    Nat → B → Int → Int → Int → Int → Option Int
  | 0, _b, _depth, _alpha, _beta, _color => none
  | fuel + 1, b, depth, alpha, beta, color =>
    if depth = 0 ∨ A.isGameOver b = true then
      some (color * evaluate_board (A.pieces b))
    else
      abLoopFuel
        (fun m a => negamaxFuel A fuel (A.push b m) (depth - 1) (-beta) (-a)
          (-color))
        beta (order_moves A b) (-INFINITY) alpha

/-- Piece map of the concrete miniature adapter: board 0 has one white
and one black pawn, board 1 (reached by the capture move) has only the
white pawn, board 2 (reached by the quiet move) keeps both pawns. -/
def caPieces : Nat → List Piece
  | 0 => [⟨.pawn, true⟩, ⟨.pawn, false⟩]
  | 1 => [⟨.pawn, true⟩]
  | 2 => [⟨.pawn, true⟩, ⟨.pawn, false⟩]
  | _ => []

/-- Legal moves of the concrete miniature adapter: board 0 offers the
capture move 1 and the quiet move 2; every other board is terminal. -/
def caMoves : Nat → List Nat
  | 0 => [1, 2]
  | _ => []

/-- A concrete instance of the board capability set, small enough for the
kernel to evaluate: boards and moves are natural numbers, a move is
named by the board it leads to, move 1 is a capture, board 0 is the only
live board, and FEN is the identity. -/
def CA : Adapter Nat Nat Nat where
  pieces := caPieces
  legalMoves := caMoves
  push := fun _ m => m
  isGameOver := fun b => b != 0
  isCapture := fun _ m => m == 1
  promotion := fun _ => false
  fen := id
  fromFen := id

/-! Helper lemmas about the running-maximum fold. -/

theorem maxFold_cons (t : M → Int) (s : Int) (m : M) (ms : List M) :
    maxFold t s (m :: ms) = maxFold t (max s (t m)) ms := rfl

theorem maxFold_mono (t : M → Int) (ms : List M) :
    ∀ s1 s2 : Int, s1 ≤ s2 → maxFold t s1 ms ≤ maxFold t s2 ms := by
  induction ms with
  | nil => intro s1 s2 h; exact h
  | cons m ms ih =>
    intro s1 s2 h
    rw [maxFold_cons, maxFold_cons]
    exact ih _ _ (by omega)

theorem maxFold_max (t : M → Int) (ms : List M) :
    ∀ s1 s2 : Int, maxFold t (max s1 s2) ms = max s1 (maxFold t s2 ms) := by
  induction ms with
  | nil => intro s1 s2; rfl
  | cons m ms ih =>
    intro s1 s2
    rw [maxFold_cons, maxFold_cons,
      show max (max s1 s2) (t m) = max s1 (max s2 (t m)) by omega]
    exact ih _ _

theorem le_maxFold (t : M → Int) (ms : List M) :
    ∀ s : Int, s ≤ maxFold t s ms := by
  induction ms with
  | nil => intro s; exact le_refl s
  | cons m ms ih =>
    intro s
    rw [maxFold_cons]
    exact le_trans (le_max_left _ _) (ih _)

theorem maxFold_le (t : M → Int) (ms : List M) :
    ∀ s bound : Int, s ≤ bound → (∀ m ∈ ms, t m ≤ bound) →
      maxFold t s ms ≤ bound := by
  induction ms with
  | nil => intro s bound h _; exact h
  | cons m ms ih =>
    intro s bound h hm
    rw [maxFold_cons]
    exact ih _ _ (by have := hm m (List.mem_cons_self m ms); omega)
      (fun x hx => hm x (List.mem_cons_of_mem m hx))

theorem le_maxFold_of_mem (t : M → Int) (ms : List M) :
    ∀ (s : Int) (m : M), m ∈ ms → t m ≤ maxFold t s ms := by
  induction ms with
  | nil => intro s m h; exact absurd h (List.not_mem_nil m)
  | cons m0 ms ih =>
    intro s m h
    rw [maxFold_cons]
    rcases List.mem_cons.mp h with rfl | h2
    · exact le_trans (le_trans (le_max_right s (t m)) (le_maxFold t ms _))
        (le_refl _)
    · exact ih _ _ h2

/-- Fail-soft correctness of the alpha-beta move loop of negamax,
relative to the uncut running maximum.  Provided each child call answers
with the fail-soft trichotomy for its window, the loop result g and the
true running maximum w satisfy: w at most alpha forces w below g below
alpha, w inside the window forces g = w, and w at least beta forces beta
below g below w.  In particular the cutoff can never change the value of
a search whose true value lies strictly inside the window. -/
theorem abLoop_spec (child : M → Int → Int) (t : M → Int) (beta : Int)
    (hchild : ∀ m a, -INFINITY ≤ a → a < beta →
      (t m ≤ a → t m ≤ child m a ∧ child m a ≤ a) ∧
      (a < t m → t m < beta → child m a = t m) ∧
      (beta ≤ t m → beta ≤ child m a ∧ child m a ≤ t m)) :
    ∀ (ms : List M) (maxEval alpha : Int),
      -INFINITY ≤ alpha → alpha < beta → maxEval ≤ alpha →
      (maxFold t maxEval ms ≤ alpha →
        maxFold t maxEval ms ≤ abLoop child beta ms maxEval alpha ∧
        abLoop child beta ms maxEval alpha ≤ alpha) ∧
      (alpha < maxFold t maxEval ms → maxFold t maxEval ms < beta →
        abLoop child beta ms maxEval alpha = maxFold t maxEval ms) ∧
      (beta ≤ maxFold t maxEval ms →
        beta ≤ abLoop child beta ms maxEval alpha ∧
        abLoop child beta ms maxEval alpha ≤ maxFold t maxEval ms) := by
  intro ms
  induction ms with
  | nil =>
    intro maxEval alpha _ _ _
    exact ⟨fun h => ⟨le_refl _, h⟩, fun _ _ => rfl, fun h => ⟨h, le_refl _⟩⟩
  | cons m ms ih =>
    intro maxEval alpha h1 h2 h3
    obtain ⟨hc1, hc2, hc3⟩ := hchild m alpha h1 h2
    simp only [abLoop, maxFold_cons]
    rcases le_or_lt (t m) alpha with hA | hA2
    · -- child value at most alpha: no cutoff, alpha unchanged
      obtain ⟨he1, he2⟩ := hc1 hA
      rw [if_neg (by omega),
        show max alpha (max maxEval (child m alpha)) = alpha by omega]
      have hrec := ih (max maxEval (child m alpha)) alpha h1 h2 (by omega)
      have hw : maxFold t (max maxEval (t m)) ms
          = max (t m) (maxFold t maxEval ms) := by
        rw [show max maxEval (t m) = max (t m) maxEval by omega, maxFold_max]
      have hwr : maxFold t (max maxEval (child m alpha)) ms
          = max (child m alpha) (maxFold t maxEval ms) := by
        rw [show max maxEval (child m alpha) = max (child m alpha) maxEval
          by omega, maxFold_max]
      obtain ⟨g1, g2, g3⟩ := hrec
      rw [hwr] at g1 g2 g3
      rw [hw]
      omega
    · rcases lt_or_le (t m) beta with hB | hC
      · -- child value strictly inside the window: exact, alpha rises to it
        have hev : child m alpha = t m := hc2 hA2 hB
        rw [hev]
        rw [if_neg (by omega),
          show max alpha (max maxEval (t m)) = t m by omega]
        have hrec := ih (max maxEval (t m)) (t m) (by omega) hB (by omega)
        have hself := le_maxFold t ms (max maxEval (t m))
        obtain ⟨g1, g2, g3⟩ := hrec
        omega
      · -- child value at least beta: cutoff fires
        obtain ⟨he1, he2⟩ := hc3 hC
        rw [if_pos (by omega)]
        have hself := le_maxFold t ms (max maxEval (t m))
        have hupper := maxFold_mono t ms (max maxEval (t m))
          (max maxEval (t m)) (le_refl _)
        have hw : maxFold t (max maxEval (t m)) ms
            = max (t m) (maxFold t maxEval ms) := by
          rw [show max maxEval (t m) = max (t m) maxEval by omega, maxFold_max]
        rw [hw] at hself
        rw [hw]
        omega

/-- Fail-soft correctness of negamax relative to the full-width value,
for any window inside the sentinel range, by induction on the depth. -/
theorem negamax_spec (A : Adapter B M F) :
    ∀ (d : Nat) (b : B) (alpha beta color : Int),
      -INFINITY ≤ alpha → alpha < beta → beta ≤ INFINITY →
      (fullwidth A b d color ≤ alpha →
        fullwidth A b d color ≤ negamax A b d alpha beta color ∧
        negamax A b d alpha beta color ≤ alpha) ∧
      (alpha < fullwidth A b d color → fullwidth A b d color < beta →
        negamax A b d alpha beta color = fullwidth A b d color) ∧
      (beta ≤ fullwidth A b d color →
        beta ≤ negamax A b d alpha beta color ∧
        negamax A b d alpha beta color ≤ fullwidth A b d color) := by
  intro d
  induction d with
  | zero =>
    intro b alpha beta color _ _ _
    exact ⟨fun h => ⟨le_refl _, h⟩, fun _ _ => rfl, fun h => ⟨h, le_refl _⟩⟩
  | succ d ih =>
    intro b alpha beta color h1 h2 h3
    by_cases hg : A.isGameOver b = true
    · have hn : negamax A b (d + 1) alpha beta color
          = color * evaluate_board (A.pieces b) := by
        simp [negamax, hg]
      have hf : fullwidth A b (d + 1) color
          = color * evaluate_board (A.pieces b) := by
        simp [fullwidth, hg]
      rw [hn, hf]
      exact ⟨fun h => ⟨le_refl _, h⟩, fun _ _ => rfl, fun h => ⟨h, le_refl _⟩⟩
    · simp only [negamax, fullwidth, if_neg hg]
      refine abLoop_spec _ (fun m => -fullwidth A (A.push b m) d (-color))
        beta (fun m a ha1 ha2 => ?_) (order_moves A b) (-INFINITY) alpha h1
        h2 h1
      beta_reduce
      obtain ⟨k1, k2, k3⟩ := ih (A.push b m) (-beta) (-a) (-color)
        (by omega) (by omega) (by omega)
      refine ⟨fun h => ?_, fun h h2b => ?_, fun h => ?_⟩
      · have := k3 (by omega)
        omega
      · have := k2 (by omega) (by omega)
        omega
      · have := k1 (by omega)
        omega

/-- The full-width value is strictly below the sentinel in magnitude,
provided the evaluation is and every live board has a legal move. -/
theorem fullwidth_bound (A : Adapter B M F)
    (hmov : ∀ b, A.isGameOver b = false → A.legalMoves b ≠ [])
    (hev : ∀ b, |evaluate_board (A.pieces b)| < INFINITY) :
    ∀ (d : Nat) (b : B) (color : Int), color = 1 ∨ color = -1 →
      |fullwidth A b d color| < INFINITY := by
  intro d
  induction d with
  | zero =>
    intro b color hc
    have := hev b
    rcases hc with rfl | rfl
    · simpa [fullwidth] using this
    · simpa [fullwidth] using this
  | succ d ih =>
    intro b color hc
    by_cases hg : A.isGameOver b = true
    · simp only [fullwidth, if_pos hg]
      have := hev b
      rcases hc with rfl | rfl
      · simpa using this
      · simpa using this
    · simp only [fullwidth, if_neg hg]
      have hne : order_moves A b ≠ [] := by
        intro hcon
        apply hmov b (by simpa using hg)
        have hlen := List.length_insertionSort
          (fun m1 m2 => move_score A b m2 ≤ move_score A b m1)
          (A.legalMoves b)
        rw [order_moves] at hcon
        rw [hcon] at hlen
        exact List.length_eq_zero.mp hlen.symm
      obtain ⟨m0, ms0, hms⟩ := List.exists_cons_of_ne_nil hne
      have hcolor2 : -color = 1 ∨ -color = -1 := by omega
      have hI : INFINITY = 100000 := rfl
      have hub : maxFold (fun m => -fullwidth A (A.push b m) d (-color))
          (-INFINITY) (order_moves A b) ≤ INFINITY - 1 := by
        refine maxFold_le _ _ _ _ (by omega) (fun m _ => ?_)
        have := abs_lt.mp (ih (A.push b m) (-color) hcolor2)
        omega
      have hlb : -fullwidth A (A.push b m0) d (-color)
          ≤ maxFold (fun m => -fullwidth A (A.push b m) d (-color))
              (-INFINITY) (order_moves A b) := le_maxFold_of_mem
        (fun m => -fullwidth A (A.push b m) d (-color)) (order_moves A b)
        (-INFINITY) m0 (by rw [hms]; exact List.mem_cons_self m0 ms0)
      have := abs_lt.mp (ih (A.push b m0) (-color) hcolor2)
      rw [abs_lt]
      constructor
      · omega
      · omega

/-- At the full sentinel window the pruned search returns exactly the
full-width value. -/
theorem negamax_full_eq (A : Adapter B M F)
    (hmov : ∀ b, A.isGameOver b = false → A.legalMoves b ≠ [])
    (hev : ∀ b, |evaluate_board (A.pieces b)| < INFINITY)
    (b : B) (d : Nat) (color : Int) (hc : color = 1 ∨ color = -1) :
    negamax A b d (-INFINITY) INFINITY color = fullwidth A b d color := by
  have hI : INFINITY = 100000 := rfl
  have hb := abs_lt.mp (fullwidth_bound A hmov hev d b color hc)
  exact (negamax_spec A d b (-INFINITY) INFINITY color (le_refl _)
    (by omega) (le_refl _)).2.1 (by omega) (by omega)

/-- A loop whose child calls ignore the running alpha is the plain
running-maximum fold. -/
theorem unprunedLoop_eq (child : M → Int → Int) (t : M → Int)
    (h : ∀ m a, child m a = t m) :
    ∀ (ms : List M) (maxEval alpha : Int),
      unprunedLoop child ms maxEval alpha = maxFold t maxEval ms := by
  intro ms
  induction ms with
  | nil => intro _ _; rfl
  | cons m ms ih =>
    intro maxEval alpha
    simp only [unprunedLoop, maxFold_cons, h]
    exact ih _ _

/-- Negamax without the cutoff computes the full-width value at every
window: the alpha and beta arguments are dead once the break is gone. -/
theorem unpruned_eq_fullwidth (A : Adapter B M F) :
    ∀ (d : Nat) (b : B) (alpha beta color : Int),
      unpruned_negamax A b d alpha beta color = fullwidth A b d color := by
  intro d
  induction d with
  | zero => intro _ _ _ _; rfl
  | succ d ih =>
    intro b alpha beta color
    by_cases hg : A.isGameOver b = true
    · simp only [unpruned_negamax, fullwidth, if_pos hg]
    · simp only [unpruned_negamax, fullwidth, if_neg hg]
      exact unprunedLoop_eq _ _ (fun m a => by rw [ih]) _ _ _

/-! Helper lemmas about the evaluator. -/

theorem evaluate_board_step (acc : Int) (p : Piece) :
    (if p.color then acc + pieceValue p else acc - pieceValue p)
      = acc + (if p.color then pieceValue p else -pieceValue p) := by
  by_cases hc : p.color = true
  · simp [hc]
  · simp [hc]
    omega

theorem evaluate_board_aux : ∀ (ps : List Piece) (acc : Int),
    ps.foldl
      (fun material p =>
        if p.color then material + pieceValue p else material - pieceValue p)
      acc = acc + evaluate_board ps := by
  intro ps
  induction ps with
  | nil => intro acc; simp [evaluate_board]
  | cons p ps ih =>
    intro acc
    have h1 : evaluate_board (p :: ps)
        = (if p.color then pieceValue p else -pieceValue p)
          + evaluate_board ps := by
      simp only [evaluate_board, List.foldl_cons]
      rw [ih, ih, evaluate_board_step]
      omega
    rw [List.foldl_cons]
    rw [ih, h1, evaluate_board_step]
    omega

theorem evaluate_board_cons (p : Piece) (ps : List Piece) :
    evaluate_board (p :: ps)
      = (if p.color then pieceValue p else -pieceValue p)
        + evaluate_board ps := by
  simp only [evaluate_board, List.foldl_cons]
  rw [evaluate_board_aux, evaluate_board_aux, evaluate_board_step]
  omega

theorem pieceValue_bounds (p : Piece) :
    0 ≤ pieceValue p ∧ pieceValue p ≤ 900 := by
  obtain ⟨pt, c⟩ := p
  cases pt <;> cases c <;> decide

theorem evaluate_board_abs_le :
    ∀ ps : List Piece, |evaluate_board ps| ≤ 900 * ps.length := by
  intro ps
  induction ps with
  | nil => simp [evaluate_board]
  | cons p ps ih =>
    rw [evaluate_board_cons]
    have h1 := pieceValue_bounds p
    have h2 := abs_le.mp ih
    rw [abs_le]
    simp only [List.length_cons]
    by_cases hc : p.color = true <;> simp only [hc, if_true, if_false] <;>
      push_cast <;> push_cast at h2 <;> constructor <;> omega

theorem evaluate_board_lt_of_len {ps : List Piece} (h : ps.length ≤ 64) :
    |evaluate_board ps| < INFINITY := by
  have h1 := evaluate_board_abs_le ps
  have h2 := abs_le.mp h1
  have hI : INFINITY = 100000 := rfl
  rw [abs_lt]
  push_cast at h2
  constructor <;> omega

theorem evaluate_board_mirror_eq :
    ∀ ps : List Piece, evaluate_board (mirrorPieces ps)
      = -evaluate_board ps := by
  intro ps
  induction ps with
  | nil => rfl
  | cons p ps ih =>
    have hcons : mirrorPieces (p :: ps)
        = mirrorPiece p :: mirrorPieces ps := rfl
    rw [hcons, evaluate_board_cons, evaluate_board_cons, ih]
    have hpv : pieceValue (mirrorPiece p) = pieceValue p := rfl
    have hcol : (mirrorPiece p).color = !p.color := rfl
    rw [hpv, hcol]
    by_cases hc : p.color = true <;> simp [hc] <;> omega

/-! Helper lemmas about move ordering. -/

theorem order_moves_perm (A : Adapter B M F) (b : B) :
    (order_moves A b).Perm (A.legalMoves b) :=
  List.perm_insertionSort _ _

theorem order_moves_sorted (A : Adapter B M F) (b : B) :
    (order_moves A b).Pairwise
      (fun m1 m2 => move_score A b m2 ≤ move_score A b m1) := by
  haveI : IsTotal M (fun m1 m2 => move_score A b m2 ≤ move_score A b m1) :=
    ⟨fun x y => le_total (move_score A b y) (move_score A b x)⟩
  haveI : IsTrans M (fun m1 m2 => move_score A b m2 ≤ move_score A b m1) :=
    ⟨fun _ _ _ hab hbc => le_trans hbc hab⟩
  exact List.sorted_insertionSort _ _

theorem move_score_promo (A : Adapter B M F) (b : B) (m : M)
    (h : A.promotion m = true) : move_score A b m = 900 := by
  rw [move_score, if_pos h]
  decide

theorem move_score_nonpromo (A : Adapter B M F) (b : B) (m : M)
    (h : A.promotion m = false) : move_score A b m ≤ 1 := by
  rw [move_score, if_neg (by simp [h])]
  by_cases hcap : A.isCapture b m = true <;> simp [hcap]

theorem move_score_quiet (A : Adapter B M F) (b : B) (m : M)
    (h1 : A.promotion m = false) (h2 : A.isCapture b m = false) :
    move_score A b m = 0 := by
  rw [move_score, if_neg (by simp [h1]), if_neg (by simp [h2])]

theorem move_score_capture (A : Adapter B M F) (b : B) (m : M)
    (h : A.isCapture b m = true) : 1 ≤ move_score A b m := by
  rw [move_score]
  by_cases hp : A.promotion m = true
  · simp [hp]
    decide
  · simp [hp, h]

/-! Helper lemmas about the root reduction. -/

theorem reduce_best_spec :
    ∀ (l : List (M × Int)) (best : Option M) (maxEval : Int),
      maxEval ≤ (reduce_best l (best, maxEval)).2 ∧
      (∀ p ∈ l, p.2 ≤ (reduce_best l (best, maxEval)).2) ∧
      (reduce_best l (best, maxEval) = (best, maxEval) ∨
        ∃ p ∈ l, reduce_best l (best, maxEval) = (some p.1, p.2)) := by
  intro l
  induction l with
  | nil =>
    intro best maxEval
    exact ⟨le_refl _, by simp, Or.inl rfl⟩
  | cons p rest ih =>
    intro best maxEval
    simp only [reduce_best]
    by_cases hlt : (best, maxEval).2 < p.2
    · rw [if_pos hlt]
      obtain ⟨i1, i2, i3⟩ := ih (some p.1) p.2
      dsimp only at hlt
      refine ⟨by omega, ?_, ?_⟩
      · intro q hq
        rcases List.mem_cons.mp hq with rfl | hq2
        · exact i1
        · exact i2 q hq2
      · rcases i3 with h | ⟨q, hq, he⟩
        · exact Or.inr ⟨p, List.mem_cons_self p rest, h⟩
        · exact Or.inr ⟨q, List.mem_cons_of_mem p hq, he⟩
    · rw [if_neg hlt]
      obtain ⟨i1, i2, i3⟩ := ih best maxEval
      dsimp only at hlt
      refine ⟨i1, ?_, ?_⟩
      · intro q hq
        rcases List.mem_cons.mp hq with rfl | hq2
        · omega
        · exact i2 q hq2
      · rcases i3 with h | ⟨q, hq, he⟩
        · exact Or.inl h
        · exact Or.inr ⟨q, List.mem_cons_of_mem p hq, he⟩

theorem root_results_fst (A : Adapter B M F) (b : B) (d : Nat) :
    (root_results A b d).map Prod.fst = order_moves A b := by
  rw [root_results, List.map_map]
  have h : (Prod.fst ∘ fun m => evaluate_move A m (A.fen b) d) = id := by
    funext m
    rfl
  rw [h, List.map_id]

/-- The reduction of choose_best_move picks some scored root move that is
maximal among all scored root moves, whenever there is a legal root move
and the search values are strictly inside the sentinel range. -/
theorem choose_spec (A : Adapter B M F)
    (hmov : ∀ b, A.isGameOver b = false → A.legalMoves b ≠ [])
    (hev : ∀ b, |evaluate_board (A.pieces b)| < INFINITY)
    (b : B) (d : Nat) (hne : A.legalMoves b ≠ [])
    (hfen : A.fromFen (A.fen b) = b) :
    ∃ m s, choose_best_move A b d = some m ∧ (m, s) ∈ root_results A b d ∧
      ∀ p ∈ root_results A b d, p.2 ≤ s := by
  have hne2 : root_results A b d ≠ [] := by
    intro hcon
    apply hne
    have h1 : (root_results A b d).length = (A.legalMoves b).length := by
      rw [root_results, List.length_map, order_moves,
        List.length_insertionSort]
    rw [hcon] at h1
    exact List.length_eq_zero.mp h1.symm
  obtain ⟨p0, hp0⟩ := List.exists_mem_of_ne_nil _ hne2
  obtain ⟨m0, hm0mem, hm0eq⟩ := List.mem_map.mp hp0
  have hsnd : p0.2
      = -negamax A (A.push b m0) (d - 1) (-INFINITY) INFINITY (-1) := by
    rw [← hm0eq]
    simp [evaluate_move, hfen]
  have heq := negamax_full_eq A hmov hev (A.push b m0) (d - 1) (-1)
    (Or.inr rfl)
  have hbnd := abs_lt.mp (fullwidth_bound A hmov hev (d - 1) (A.push b m0)
    (-1) (Or.inr rfl))
  have hp0score : -INFINITY < p0.2 := by
    rw [hsnd, heq]
    omega
  obtain ⟨r1, r2, r3⟩ := reduce_best_spec (root_results A b d) none
    (-INFINITY)
  rcases r3 with hsame | ⟨q, hq, he⟩
  · exfalso
    have := r2 p0 hp0
    rw [hsame] at this
    dsimp only at this
    omega
  · refine ⟨q.1, q.2, ?_, ?_, ?_⟩
    · rw [choose_best_move, he]
    · exact hq
    · intro p hp
      have := r2 p hp
      rw [he] at this
      exact this

/-- With no legal root moves the reduction never sees a result and the
initial none survives. -/
theorem choose_none_of_empty (A : Adapter B M F) (b : B) (d : Nat)
    (hempty : A.legalMoves b = []) : choose_best_move A b d = none := by
  have h1 : order_moves A b = [] := by
    rw [order_moves, hempty]
    rfl
  rw [choose_best_move, root_results, h1]
  rfl

/-! Bounds: every score the search can return stays in the sentinel
range. -/

theorem abLoop_bounds (child : M → Int → Int) (beta : Int)
    (hch : ∀ m a, -INFINITY ≤ a →
      -INFINITY ≤ child m a ∧ child m a ≤ INFINITY) :
    ∀ (ms : List M) (maxEval alpha : Int),
      -INFINITY ≤ alpha → -INFINITY ≤ maxEval → maxEval ≤ INFINITY →
      -INFINITY ≤ abLoop child beta ms maxEval alpha ∧
      abLoop child beta ms maxEval alpha ≤ INFINITY := by
  intro ms
  induction ms with
  | nil => intro maxEval alpha _ h2 h3; exact ⟨h2, h3⟩
  | cons m ms ih =>
    intro maxEval alpha h1 h2 h3
    obtain ⟨hc1, hc2⟩ := hch m alpha h1
    simp only [abLoop]
    split
    · constructor <;> omega
    · exact ih _ _ (by omega) (by omega) (by omega)

theorem negamax_bounds (A : Adapter B M F)
    (hev : ∀ b, |evaluate_board (A.pieces b)| < INFINITY) :
    ∀ (d : Nat) (b : B) (alpha beta color : Int),
      color = 1 ∨ color = -1 → -INFINITY ≤ alpha → beta ≤ INFINITY →
      -INFINITY ≤ negamax A b d alpha beta color ∧
      negamax A b d alpha beta color ≤ INFINITY := by
  intro d
  induction d with
  | zero =>
    intro b alpha beta color hc _ _
    have := abs_lt.mp (hev b)
    rcases hc with rfl | rfl
    · simp only [negamax, one_mul]
      constructor <;> omega
    · simp only [negamax, neg_mul, one_mul]
      constructor <;> omega
  | succ d ih =>
    intro b alpha beta color hc h1 h2
    have heval := abs_lt.mp (hev b)
    simp only [negamax]
    split
    · rcases hc with rfl | rfl
      · simp only [one_mul]
        constructor <;> omega
      · simp only [neg_mul, one_mul]
        constructor <;> omega
    · refine abLoop_bounds _ beta (fun m a ha => ?_) (order_moves A b)
        (-INFINITY) alpha h1 (le_refl _) (by decide)
      beta_reduce
      have := ih (A.push b m) (-beta) (-a) (-color) (by omega) (by omega)
        (by omega)
      omega

/-! The stateful model: push/pop balance and agreement with the pure
search. -/

theorem popS_pushS (A : Adapter B M F) (m : M) (s : B × List B) :
    popS (pushS A m s) = s := rfl

theorem abLoopS_state (A : Adapter B M F)
    (recur : B × List B → Int → Int → Int × (B × List B))
    (hr : ∀ s a bt, (recur s a bt).2 = s) (beta : Int) :
    ∀ (ms : List M) (s : B × List B) (maxEval alpha : Int),
      (abLoopS A recur beta ms s maxEval alpha).2 = s := by
  intro ms
  induction ms with
  | nil => intro s maxEval alpha; rfl
  | cons m ms ih =>
    intro s maxEval alpha
    simp only [abLoopS]
    rw [hr (pushS A m s) (-beta) (-alpha), popS_pushS]
    split
    · rfl
    · exact ih s _ _

theorem negamaxS_state (A : Adapter B M F) :
    ∀ (d : Nat) (s : B × List B) (alpha beta color : Int),
      (negamaxS A s d alpha beta color).2 = s := by
  intro d
  induction d with
  | zero => intro s alpha beta color; rfl
  | succ d ih =>
    intro s alpha beta color
    simp only [negamaxS]
    split
    · rfl
    · exact abLoopS_state A _ (fun s2 a2 b2 => ih s2 a2 b2 (-color)) beta
        (order_moves A s.1) s (-INFINITY) alpha

theorem abLoopS_fst (A : Adapter B M F)
    (recur : B × List B → Int → Int → Int × (B × List B))
    (hr : ∀ s a bt, (recur s a bt).2 = s) (beta : Int) :
    ∀ (ms : List M) (s : B × List B) (maxEval alpha : Int),
      (abLoopS A recur beta ms s maxEval alpha).1
        = abLoop (fun m a => -(recur (pushS A m s) (-beta) (-a)).1) beta ms
            maxEval alpha := by
  intro ms
  induction ms with
  | nil => intro s maxEval alpha; rfl
  | cons m ms ih =>
    intro s maxEval alpha
    simp only [abLoopS, abLoop]
    rw [hr (pushS A m s) (-beta) (-alpha), popS_pushS]
    split
    · rfl
    · exact ih s _ _

theorem negamaxS_fst (A : Adapter B M F) :
    ∀ (d : Nat) (s : B × List B) (alpha beta color : Int),
      (negamaxS A s d alpha beta color).1
        = negamax A s.1 d alpha beta color := by
  intro d
  induction d with
  | zero => intro s alpha beta color; rfl
  | succ d ih =>
    intro s alpha beta color
    simp only [negamaxS, negamax]
    split
    · rfl
    · rw [abLoopS_fst A _ (fun s2 a2 b2 => negamaxS_state A d s2 a2 b2 (-color))
        beta (order_moves A s.1) s (-INFINITY) alpha]
      congr 1
      funext m a
      rw [ih (pushS A m s) (-beta) (-a) (-color)]
      rfl

/-! Facts about the concrete miniature adapter. -/

theorem CA_moves_nonempty :
    ∀ b, CA.isGameOver b = false → CA.legalMoves b ≠ [] := by
  intro b hb
  match b with
  | 0 => decide
  | n + 1 => exact Bool.noConfusion hb

theorem CA_eval_bound :
    ∀ b, |evaluate_board (CA.pieces b)| < INFINITY := by
  intro b
  match b with
  | 0 => decide
  | 1 => decide
  | 2 => decide
  | n + 3 => exact show |evaluate_board []| < INFINITY by decide

theorem CA_len : ∀ b, (CA.pieces b).length ≤ 64 := by
  intro b
  match b with
  | 0 => decide
  | 1 => decide
  | 2 => decide
  | n + 3 => exact show ([] : List Piece).length ≤ 64 by decide

theorem CA_fen : ∀ b, CA.fromFen (CA.fen b) = b := fun _ => rfl

theorem CA_push : ∀ b m : Nat, CA.push b m = m := fun _ _ => rfl

/-! The claims. -/

/-- C1: alpha-beta pruning is value-preserving.  For every adapter whose
live boards always have a legal move and whose evaluation stays strictly
below the sentinel (both hold for every legal chess position), every
depth and every color in the negamax convention, the pruned search at the
full window returns exactly the score of negamax with the cutoff removed,
over the same move tree and the same evaluate_board leaf function. -/
theorem negamax_prunes_soundly (A : Adapter B M F)
    (hmov : ∀ b, A.isGameOver b = false → A.legalMoves b ≠ [])
    (hev : ∀ b, |evaluate_board (A.pieces b)| < INFINITY)
    (b : B) (d : Nat) (color : Int) (hc : color = 1 ∨ color = -1) :
    negamax A b d (-INFINITY) INFINITY color
      = unpruned_negamax A b d (-INFINITY) INFINITY color := by
  rw [unpruned_eq_fullwidth]
  exact negamax_full_eq A hmov hev b d color hc

/-- Witness for C1 at the concrete adapter, depth 2, color +1. -/
theorem negamax_prunes_soundly_witness :
    negamax CA 0 2 (-INFINITY) INFINITY 1
      = unpruned_negamax CA 0 2 (-INFINITY) INFINITY 1 :=
  negamax_prunes_soundly CA CA_moves_nonempty CA_eval_bound 0 2 1
    (Or.inl rfl)

/-- C2: scheduler totality.  With at least one legal root move, depth at
least 1, and the FEN round trip the identity on the root board,
choose_best_move scores every legal root move exactly once (the scored
list is a permutation of the legal moves and every score is the negated
full-window child search at depth - 1), and it returns a move whose score
is at least the computed score of every other root move. -/
theorem choose_best_move_totality (A : Adapter B M F)
    (hmov : ∀ b, A.isGameOver b = false → A.legalMoves b ≠ [])
    (hev : ∀ b, |evaluate_board (A.pieces b)| < INFINITY)
    (b : B) (d : Nat) (_hd : 1 ≤ d) (hne : A.legalMoves b ≠ [])
    (hfen : A.fromFen (A.fen b) = b) :
    ((root_results A b d).map Prod.fst).Perm (A.legalMoves b) ∧
    (∀ p ∈ root_results A b d,
      p.2 = -negamax A (A.push b p.1) (d - 1) (-INFINITY) INFINITY (-1)) ∧
    ∃ m s, choose_best_move A b d = some m ∧ (m, s) ∈ root_results A b d ∧
      ∀ p ∈ root_results A b d, p.2 ≤ s := by
  refine ⟨?_, ?_, choose_spec A hmov hev b d hne hfen⟩
  · rw [root_results_fst]
    exact order_moves_perm A b
  · intro p hp
    obtain ⟨m0, _, hm0eq⟩ := List.mem_map.mp hp
    rw [← hm0eq]
    simp [evaluate_move, hfen]

/-- Witness for C2 at the concrete adapter, board 0, depth 2. -/
theorem choose_best_move_totality_witness :
    ((root_results CA 0 2).map Prod.fst).Perm (CA.legalMoves 0) ∧
    (∀ p ∈ root_results CA 0 2,
      p.2 = -negamax CA (CA.push 0 p.1) 1 (-INFINITY) INFINITY (-1)) ∧
    ∃ m s, choose_best_move CA 0 2 = some m ∧ (m, s) ∈ root_results CA 0 2 ∧
      ∀ p ∈ root_results CA 0 2, p.2 ≤ s :=
  choose_best_move_totality CA CA_moves_nonempty CA_eval_bound 0 2
    (by decide) (by decide) rfl

/-- C3 counterexample: negamax symmetry fails on the code at depth 1.  On
a board with a capture worth 100 and a quiet move, the two color signs
give 100 and 0, not negations of each other, because the code maximizes
at every node regardless of the color argument. -/
theorem negamax_symmetry_counterexample :
    ¬(negamax CA 0 1 (-INFINITY) INFINITY 1
        = -negamax CA 0 1 (-INFINITY) INFINITY (-1)) := by
  decide

/-- C3 amended: negamax symmetry holds at depth 0, where the color
argument only flips the sign of the returned evaluation; at depth 1 and
beyond the code maximizes for both colors and the identity fails (see the
counterexample). -/
theorem negamax_symmetry_depth_zero (A : Adapter B M F) (b : B)
    (alpha beta : Int) :
    negamax A b 0 alpha beta 1 = -negamax A b 0 alpha beta (-1) := by
  show (1 : Int) * evaluate_board (A.pieces b)
    = -((-1) * evaluate_board (A.pieces b))
  ring

/-- C4: choose_best_move returns none exactly when the game is over.
With no legal moves it returns none (the reduction never fires); with at
least one legal move it returns some legal move of the position. -/
theorem choose_best_move_none_iff (A : Adapter B M F)
    (hmov : ∀ b, A.isGameOver b = false → A.legalMoves b ≠ [])
    (hev : ∀ b, |evaluate_board (A.pieces b)| < INFINITY)
    (b : B) (d : Nat) (_hd : 1 ≤ d) (hfen : A.fromFen (A.fen b) = b) :
    (A.legalMoves b = [] → choose_best_move A b d = none) ∧
    (A.legalMoves b ≠ [] →
      ∃ m, choose_best_move A b d = some m ∧ m ∈ A.legalMoves b) := by
  constructor
  · intro hempty
    exact choose_none_of_empty A b d hempty
  · intro hne
    obtain ⟨m, s, hm, hmem, _⟩ := choose_spec A hmov hev b d hne hfen
    refine ⟨m, hm, ?_⟩
    have h1 : m ∈ (root_results A b d).map Prod.fst :=
      List.mem_map.mpr ⟨(m, s), hmem, rfl⟩
    rw [root_results_fst] at h1
    exact (order_moves_perm A b).mem_iff.mp h1

/-- Witness for C4 at the concrete adapter: the game-over board 3 with no
legal moves yields none, the live board 0 yields a legal move. -/
theorem choose_best_move_none_iff_witness :
    ((CA.legalMoves 3 = [] → choose_best_move CA 3 2 = none) ∧
      (CA.legalMoves 3 ≠ [] →
        ∃ m, choose_best_move CA 3 2 = some m ∧ m ∈ CA.legalMoves 3)) ∧
    ((CA.legalMoves 0 = [] → choose_best_move CA 0 2 = none) ∧
      (CA.legalMoves 0 ≠ [] →
        ∃ m, choose_best_move CA 0 2 = some m ∧ m ∈ CA.legalMoves 0)) :=
  ⟨choose_best_move_none_iff CA CA_moves_nonempty CA_eval_bound 3 2
      (by decide) rfl,
    choose_best_move_none_iff CA CA_moves_nonempty CA_eval_bound 0 2
      (by decide) rfl⟩

/-- C5 counterexample: a negative depth does not fail fast.  On the
concrete adapter the search with depth -1 simply proceeds past the
depth test, recurses into the children, and returns an ordinary score;
with only one frame of recursion budget it is still running (none), so
the work was real recursion, not an immediate error. -/
theorem negative_depth_counterexample :
    negamaxFuel CA 5 0 (-1) (-INFINITY) INFINITY 1 = some 100 ∧
    negamaxFuel CA 1 0 (-1) (-INFINITY) INFINITY 1 = none := by
  constructor
  · decide
  · decide

/-- C5 amended: the code performs no validation of the depth argument.
A negative depth never matches the depth == 0 test, so the search
proceeds and recurses, terminating only where the adapter reports game
over; on the concrete adapter it returns the ordinary negamax score for
every negative depth and every sufficient recursion budget, rather than
failing fast with an error. -/
theorem negative_depth_not_validated :
    ∀ fuel : Nat, 2 ≤ fuel → ∀ d : Int, d < 0 →
      negamaxFuel CA fuel 0 d (-INFINITY) INFINITY 1 = some 100 := by
  intro fuel hf d hd
  obtain ⟨f, rfl⟩ : ∃ f, fuel = f + 1 + 1 := ⟨fuel - 2, by omega⟩
  have hterm1 : ∀ a2 b2 : Int,
      negamaxFuel CA (f + 1) 1 (d - 1) a2 b2 (-1) = some (-100) := by
    intro a2 b2
    have hg1 : CA.isGameOver 1 = true := rfl
    rw [negamaxFuel]
    rw [if_pos (Or.inr hg1)]
    decide
  have hterm2 : ∀ a2 b2 : Int,
      negamaxFuel CA (f + 1) 2 (d - 1) a2 b2 (-1) = some 0 := by
    intro a2 b2
    have hg2 : CA.isGameOver 2 = true := rfl
    rw [negamaxFuel]
    rw [if_pos (Or.inr hg2)]
    decide
  have horder : order_moves CA 0 = [1, 2] := by decide
  have hnot : ¬(d = 0 ∨ CA.isGameOver 0 = true) := by
    rintro (rfl | hcon)
    · omega
    · exact Bool.noConfusion hcon
  rw [negamaxFuel]
  rw [if_neg hnot, horder]
  rw [abLoopFuel]
  rw [CA_push 0 1]
  rw [hterm1]
  rw [Option.some_bind]
  rw [if_neg (by decide)]
  rw [abLoopFuel]
  rw [CA_push 0 2]
  rw [hterm2]
  rw [Option.some_bind]
  rw [if_neg (by decide)]
  rw [abLoopFuel]
  decide

/-- Witness for C5 amended, at budget 2 and depth -1. -/
theorem negative_depth_not_validated_witness :
    negamaxFuel CA 2 0 (-1) (-INFINITY) INFINITY 1 = some 100 :=
  negative_depth_not_validated 2 (by decide) (-1) (by decide)

/-- C6: depth-0 identity.  At depth zero negamax returns color times the
material evaluation, for every board, window and color in the negamax
convention. -/
theorem negamax_depth_zero_identity (A : Adapter B M F) (b : B)
    (alpha beta color : Int) (_hc : color = 1 ∨ color = -1) :
    negamax A b 0 alpha beta color = color * evaluate_board (A.pieces b) :=
  rfl

/-- Witness for C6 at the concrete adapter, an arbitrary window. -/
theorem negamax_depth_zero_identity_witness :
    negamax CA 1 0 3 7 1 = 1 * evaluate_board (CA.pieces 1) :=
  negamax_depth_zero_identity CA 1 3 7 1 (Or.inl rfl)

/-- C7: ordering contract.  order_moves returns a permutation of the
legal moves, sorted by move_score in descending order; consequently every
promotion precedes every non-promotion, and every capture precedes every
move that is neither a capture nor a promotion (promotions score the
queen weight 900, other captures 1, quiet moves 0). -/
theorem order_moves_contract (A : Adapter B M F) (b : B) :
    (order_moves A b).Perm (A.legalMoves b) ∧
    (order_moves A b).Pairwise
      (fun m1 m2 => move_score A b m2 ≤ move_score A b m1) ∧
    (order_moves A b).Pairwise
      (fun m1 m2 => A.promotion m2 = true → A.promotion m1 = true) ∧
    (order_moves A b).Pairwise
      (fun m1 m2 => A.isCapture b m2 = true →
        A.isCapture b m1 = true ∨ A.promotion m1 = true) := by
  refine ⟨order_moves_perm A b, order_moves_sorted A b, ?_, ?_⟩
  · refine (order_moves_sorted A b).imp ?_
    intro m1 m2 hle hp2
    by_contra hq
    have hq2 : A.promotion m1 = false := by
      simpa using hq
    have h900 := move_score_promo A b m2 hp2
    have h1 := move_score_nonpromo A b m1 hq2
    omega
  · refine (order_moves_sorted A b).imp ?_
    intro m1 m2 hle hc2
    by_contra hq
    push_neg at hq
    have hq1 : A.isCapture b m1 = false := by
      simpa using hq.1
    have hq2 : A.promotion m1 = false := by
      simpa using hq.2
    have h0 := move_score_quiet A b m1 hq2 hq1
    have h1 := move_score_capture A b m2 hc2
    omega

/-- C8: material symmetry of the evaluator.  Color-mirroring the piece
map negates the evaluation (square mirroring cannot matter because
evaluate_board reads only piece kind and color); the evaluation adds the
table weight of every White piece, subtracts it for every Black piece,
and a king contributes 0 since it has no entry in the table. -/
theorem evaluate_board_material_symmetry :
    (∀ ps : List Piece,
      evaluate_board (mirrorPieces ps) = -evaluate_board ps) ∧
    (∀ (p : Piece) (ps : List Piece),
      evaluate_board (p :: ps)
        = (if p.color then pieceValue p else -pieceValue p)
          + evaluate_board ps) ∧
    (∀ (c : Bool) (ps : List Piece),
      evaluate_board (⟨PieceType.king, c⟩ :: ps) = evaluate_board ps) := by
  refine ⟨evaluate_board_mirror_eq, evaluate_board_cons, ?_⟩
  intro c ps
  rw [evaluate_board_cons]
  have hz : pieceValue ⟨PieceType.king, c⟩ = 0 := rfl
  rw [hz]
  cases c <;> simp

/-- C9: score magnitudes stay below the sentinel.  With at most 64
pieces per board (and the fixed weight table whose maximum entry is 900)
the evaluation is strictly below INFINITY in magnitude; every score
negamax returns for a window inside the sentinel range has magnitude at
most INFINITY, and negating such a score stays in range, so negation is
exact and cannot collide past the sentinel. -/
theorem scores_below_sentinel (A : Adapter B M F)
    (hlen : ∀ b, (A.pieces b).length ≤ 64)
    (b : B) (d : Nat) (alpha beta color : Int)
    (hc : color = 1 ∨ color = -1) (ha : -INFINITY ≤ alpha)
    (hb : beta ≤ INFINITY) :
    |evaluate_board (A.pieces b)| < INFINITY ∧
    |negamax A b d alpha beta color| ≤ INFINITY ∧
    |(-(negamax A b d alpha beta color))| ≤ INFINITY := by
  have hev : ∀ b2, |evaluate_board (A.pieces b2)| < INFINITY :=
    fun b2 => evaluate_board_lt_of_len (hlen b2)
  have hbd := negamax_bounds A hev d b alpha beta color hc ha hb
  refine ⟨hev b, abs_le.mpr ⟨by omega, by omega⟩, ?_⟩
  rw [abs_neg]
  exact abs_le.mpr ⟨by omega, by omega⟩

/-- Witness for C9 at the concrete adapter, full window, depth 1. -/
theorem scores_below_sentinel_witness :
    |evaluate_board (CA.pieces 0)| < INFINITY ∧
    |negamax CA 0 1 (-INFINITY) INFINITY 1| ≤ INFINITY ∧
    |(-(negamax CA 0 1 (-INFINITY) INFINITY 1))| ≤ INFINITY :=
  scores_below_sentinel CA CA_len 0 1 (-INFINITY) INFINITY 1 (Or.inl rfl)
    (le_refl _) (le_refl _)

/-- C10: board restoration.  The stateful negamax, in which board.push
grows the undo stack and board.pop restores from it, returns the board
and stack exactly as it received them, on every path including the
alpha-beta cutoff path; and the stateful choose_best_move returns its
root board state untouched, since the root board is only read and all
mutation happens on the workers' private FEN-rebuilt copies. -/
theorem search_restores_board (A : Adapter B M F) (s : B × List B)
    (d : Nat) (alpha beta color : Int) (max_depth : Nat) :
    (negamaxS A s d alpha beta color).2 = s ∧
    (choose_best_moveS A s max_depth).2 = s :=
  ⟨negamaxS_state A d s alpha beta color, rfl⟩

end ChessEngine
